import Mathlib

/-!
Verification of the ledger-analytics core of the group-expenses bot
(`src/bot.py`): the period deriver `get_periods`, the aggregator
`get_stat_for_period`, the CSV export filter `get_csv_for_period` and the
settlement solver `get_settlement`.

Modelling conventions (shallow embedding):
* A CSV row (columns `Date,User,Category,Price,Comment`) becomes a `Row`.
  The `Date` column is modelled by its date portion only (every consumer in
  the source does `row["Date"].split()[0]` before using it); the `Price`
  column is modelled by the outcome of Python `float(...)` parsing: `none`
  when the field is missing, empty or unparsable (the source's `KeyError` /
  `ValueError` / `TypeError` cases), `some q` when it parses to the value `q`.
* Python floats are idealised as exact rationals; `round(x, 2)` becomes
  `round2` (round half away from the floor, to a multiple of `1/100`).
* A function that can raise (`get_stat_for_period`, which calls
  `float(row["Price"])` unguarded) returns an `Option`; `none` is the raised
  exception. The settlement path catches its parse failures, so it is total.
* Python dicts become association lists: `dget`/`dset` mirror
  `d.get(k, 0.0)` and `d[k] = v` (first occurrence wins, insertion order
  preserved, updated keys keep their position, new keys appended).
* The settlement `while i < len(creditors) and j < len(debtors)` loop is
  modelled by `sweep` with an explicit iteration budget ("fuel").
  `get_settlement` supplies `creditors.length + debtors.length`, which the
  lemma `sweep_fuel_add` proves sufficient for the balance lists the solver
  actually passes (each iteration settles at least one side).
-/

set_option linter.unusedVariables false

/-- Calendar date: the date portion of the `Date` column, with the time of
day discarded exactly as `row["Date"].split()[0]` discards it. -/
structure Date where
  year : ℕ
  month : ℕ
  day : ℕ
deriving DecidableEq

/-- Ordering of dates, as Python compares `datetime.date` values:
lexicographic on (year, month, day). -/
def dateLe (a b : Date) : Prop :=
  a.year < b.year ∨
    (a.year = b.year ∧
      (a.month < b.month ∨ (a.month = b.month ∧ a.day ≤ b.day)))

instance : DecidableRel dateLe := fun a b => by
  unfold dateLe; infer_instance

/-- Python `min` on two dates. -/
def dateMin (a b : Date) : Date := if dateLe a b then a else b

/-- Python `max` on two dates (`max(a, b)` keeps `b` unless `b < a`;
for a total order this agrees with picking the `dateLe`-larger one). -/
def dateMax (a b : Date) : Date := if dateLe a b then b else a

/-- One ledger record: a row of the expenses CSV file.  `price` is the
outcome of parsing the `Price` field with Python `float`
(`none` = missing/empty/unparsable). -/
structure Row where
  date : Date
  user : String
  category : String
  price : Option ℚ
  comment : String
deriving DecidableEq

/-- Membership of a row in a reporting window: the source's
`start_date <= row_date <= end_date` (inclusive on both ends). -/
def inWindow (start end_ : Date) (r : Row) : Prop :=
  dateLe start r.date ∧ dateLe r.date end_

instance (start end_ : Date) (r : Row) : Decidable (inWindow start end_ r) := by
  unfold inWindow; infer_instance

/-- Python `d.get(k, 0.0)` on an association list (first occurrence wins). -/
def dget (m : List (String × ℚ)) (k : String) : ℚ :=
  match m with
  | [] => 0
  | (k', v) :: rest => if k' = k then v else dget rest k

/-- Python `d[k] = v`: update the first occurrence of `k` in place, else
append the new key at the end (Python dicts preserve insertion order). -/
def dset (m : List (String × ℚ)) (k : String) (v : ℚ) : List (String × ℚ) :=
  match m with
  | [] => [(k, v)]
  | (k', v') :: rest => if k' = k then (k, v) :: rest else (k', v') :: dset rest k v

/-- Sum of the values of a dict: Python `sum(d.values())`. -/
def sumVals (m : List (String × ℚ)) : ℚ := (m.map (fun e => e.2)).sum

/-- Key list of a dict, in insertion order: Python `list(d.keys())`. -/
def keys (m : List (String × ℚ)) : List String := m.map (fun e => e.1)

/-- Python `round(q, 2)` on the exact-rational idealisation: round
`100 * q` to the nearest integer (halves away from the floor) and divide
back by `100`. -/
def round2 (q : ℚ) : ℚ := ((round (100 * q) : ℤ) : ℚ) / 100

/-- Result of `get_stat_for_period`: total spend plus the per-category and
per-user breakdown dicts. -/
structure Stats where
  total : ℚ
  by_category : List (String × ℚ)
  by_user : List (String × ℚ)
deriving DecidableEq

/-- One loop iteration of `get_stat_for_period`: rows outside the window are
ignored; an in-window row whose `Price` does not parse raises (`none`),
otherwise the three accumulators are updated exactly as in the source
(`by_category[category] = by_category.get(category, 0.0) + price`, etc.). -/
def statStep (start end_ : Date) (acc : Option Stats) (r : Row) : Option Stats :=
  match acc with
  | none => none
  | some s =>
      if inWindow start end_ r then
        match r.price with
        | none => none
        | some price =>
            some { total := s.total + price
                   by_category := dset s.by_category r.category (dget s.by_category r.category + price)
                   by_user := dset s.by_user r.user (dget s.by_user r.user + price) }
      else some s

/-- The aggregator `get_stat_for_period(csv_file, start, end)`: fold the
rows in file order; `none` models the exception raised on the first
in-window row with an unparsable amount. -/
def get_stat_for_period (rows : List Row) (start end_ : Date) : Option Stats :=
  rows.foldl (statStep start end_) (some { total := 0, by_category := [], by_user := [] })

/-- Amount a row contributes where the settlement path is concerned:
the parsed price, or `0` for a skipped (missing/unparsable) one. -/
def rowAmt (r : Row) : ℚ := r.price.getD 0

/-- The export filter `get_csv_for_period`: collect, in file order, exactly
the rows whose date portion lies in `[start, end]`; rows are re-emitted
verbatim and the `Price` field is never parsed. -/
def get_csv_for_period (rows : List Row) (start end_ : Date) : List Row :=
  rows.foldl (fun acc r => if inWindow start end_ r then acc ++ [r] else acc) []

/-- Helper for `firstDedup`: drop elements already seen. -/
def firstDedupGo (seen : List String) : List String → List String
  | [] => []
  | u :: rest =>
      if u ∈ seen then firstDedupGo seen rest
      else u :: firstDedupGo (seen ++ [u]) rest

/-- Key order of a Python dict built by comprehension over a list: keep the
first occurrence of each element, in order (`{u: ... for u in usernames}`). -/
def firstDedup (l : List String) : List String := firstDedupGo [] l

/-- One settlement transfer: `{"from": ..., "to": ..., "amount": ...}`. -/
structure Tx where
  from_ : String
  to_ : String
  amount : ℚ
deriving DecidableEq

/-- The greedy two-pointer sweep of `get_settlement`, on the (sorted)
creditor and debtor lists.  Advancing pointer `i` past a settled creditor is
modelled by dropping the head of the creditor list (only heads are ever
read), and likewise for debtors; an updated but unsettled head stays.  The
structural `fuel` argument bounds the number of loop iterations; the caller
passes `creditors.length + debtors.length`, which suffices because every
iteration settles at least one head (see `sweep_fuel_add`). -/
def sweep : ℕ → List (String × ℚ) → List (String × ℚ) → List Tx
  | 0, _, _ => []
  | _ + 1, [], _ => []
  | _ + 1, _ :: _, [] => []
  | fuel + 1, (cu, ca) :: cs, (du, da) :: ds =>
      let transfer := round2 (min ca (-da))
      let newCred := round2 (ca - transfer)
      let newDebt := round2 (da + transfer)
      (if 0 < transfer then [{ from_ := du, to_ := cu, amount := transfer }] else [])
        ++ sweep fuel
            (if |newCred| < 1 / 100 then cs else (cu, newCred) :: cs)
            (if |newDebt| < 1 / 100 then ds else (du, newDebt) :: ds)

/-- Sort key of `creditors.sort(key=lambda x: x[1], reverse=True)`:
descending balance (a stable sort with this relation reproduces Python's
stable descending sort). -/
def credRel (a b : String × ℚ) : Prop := b.2 ≤ a.2

instance : DecidableRel credRel := fun a b => inferInstanceAs (Decidable (b.2 ≤ a.2))

instance : IsTotal (String × ℚ) credRel := ⟨fun a b => le_total b.2 a.2⟩

instance : IsTrans (String × ℚ) credRel := ⟨fun _ _ _ h1 h2 => le_trans h2 h1⟩

/-- Sort key of `debtors.sort(key=lambda x: x[1])`: ascending balance. -/
def debtRel (a b : String × ℚ) : Prop := a.2 ≤ b.2

instance : DecidableRel debtRel := fun a b => inferInstanceAs (Decidable (a.2 ≤ b.2))

instance : IsTotal (String × ℚ) debtRel := ⟨fun a b => le_total a.2 b.2⟩

instance : IsTrans (String × ℚ) debtRel := ⟨fun _ _ _ h1 h2 => le_trans h1 h2⟩

/-- Result of `get_settlement`. -/
structure Settlement where
  spent : List (String × ℚ)
  average : ℚ
  balances : List (String × ℚ)
  transactions : List Tx
deriving DecidableEq

/-- The initial spend dict `{u: 0.0 for u in usernames}`. -/
def initSpent (usernames : List String) : List (String × ℚ) :=
  (firstDedup usernames).map (fun u => (u, (0 : ℚ)))

/-- One loop iteration of the spend-summing loop of `get_settlement`: rows
of non-participants are ignored, rows with an empty or unparsable `Price`
are skipped (`continue`), otherwise `spent[user] += amount`.  (The key is
always present, so the dict write is `dset` of the incremented value.) -/
def spentStep (usernames : List String) (acc : List (String × ℚ)) (row : Row) :
    List (String × ℚ) :=
  if row.user ∈ usernames then
    match row.price with
    | none => acc
    | some amount => dset acc row.user (dget acc row.user + amount)
  else acc

/-- The spend dict of `get_settlement` after the summing loop. -/
def spentMap (rows : List Row) (usernames : List String) : List (String × ℚ) :=
  rows.foldl (spentStep usernames) (initSpent usernames)

/-- The (unrounded) equal-split target:
`average = total_spent / n if n > 0 else 0.0`. -/
def avgFrom (spent : List (String × ℚ)) (usernames : List String) : ℚ :=
  if 0 < usernames.length then sumVals spent / (usernames.length : ℚ) else 0

/-- The balances dict `{u: round(spent[u] - average, 2) for u in usernames}`. -/
def balancesFrom (spent : List (String × ℚ)) (usernames : List String) :
    List (String × ℚ) :=
  (firstDedup usernames).map
    (fun u => (u, round2 (dget spent u - avgFrom spent usernames)))

/-- The creditor list: entries of `balances` with positive balance, in dict
order, then sorted by descending balance (stable, as `list.sort`). -/
def creditorsFrom (spent : List (String × ℚ)) (usernames : List String) :
    List (String × ℚ) :=
  List.insertionSort credRel
    ((balancesFrom spent usernames).filter (fun e => decide (0 < e.2)))

/-- The debtor list: entries of `balances` with negative balance, in dict
order, then sorted by ascending balance (most negative first). -/
def debtorsFrom (spent : List (String × ℚ)) (usernames : List String) :
    List (String × ℚ) :=
  List.insertionSort debtRel
    ((balancesFrom spent usernames).filter (fun e => decide (e.2 < 0)))

/-- The transaction list produced by the greedy sweep. -/
def txFrom (spent : List (String × ℚ)) (usernames : List String) : List Tx :=
  sweep ((creditorsFrom spent usernames).length + (debtorsFrom spent usernames).length)
    (creditorsFrom spent usernames) (debtorsFrom spent usernames)

/-- The settlement solver `get_settlement(csv_file, usernames)`. -/
def get_settlement (rows : List Row) (usernames : List String) : Settlement :=
  { spent := spentMap rows usernames
    average := round2 (avgFrom (spentMap rows usernames) usernames)
    balances := balancesFrom (spentMap rows usernames) usernames
    transactions := txFrom (spentMap rows usernames) usernames }

/-- English month names, as `calendar.month_name[m]` for `m = 1..12`. -/
def monthName (m : ℕ) : String :=
  match m with
  | 1 => "January" | 2 => "February" | 3 => "March" | 4 => "April"
  | 5 => "May" | 6 => "June" | 7 => "July" | 8 => "August"
  | 9 => "September" | 10 => "October" | 11 => "November" | 12 => "December"
  | _ => ""

/-- Gregorian leap-year rule, as used by `calendar.monthrange`. -/
def isLeap (y : ℕ) : Bool :=
  (y % 4 == 0 && y % 100 != 0) || y % 400 == 0

/-- Number of days in a month: `calendar.monthrange(y, m)[1]`. -/
def monthLength (y m : ℕ) : ℕ :=
  match m with
  | 1 => 31 | 2 => if isLeap y then 29 else 28 | 3 => 31 | 4 => 30 | 5 => 31
  | 6 => 30 | 7 => 31 | 8 => 31 | 9 => 30 | 10 => 31 | 11 => 30 | 12 => 31
  | _ => 0

/-- Descending order on (year, month) pairs:
`sorted(set(...), reverse=True)` on Python tuples. -/
def pairGe (a b : ℕ × ℕ) : Prop :=
  b.1 < a.1 ∨ (b.1 = a.1 ∧ b.2 ≤ a.2)

instance : DecidableRel pairGe := fun a b => by
  unfold pairGe; infer_instance

instance : IsTotal (ℕ × ℕ) pairGe := ⟨fun a b => by unfold pairGe; omega⟩

instance : IsTrans (ℕ × ℕ) pairGe := ⟨fun a b c h1 h2 => by
  unfold pairGe at *; omega⟩

/-- Descending order on years: `sorted(set(...), reverse=True)`. -/
def natGe (a b : ℕ) : Prop := b ≤ a

instance : DecidableRel natGe := fun a b => inferInstanceAs (Decidable (b ≤ a))

instance : IsTotal ℕ natGe := ⟨fun a b => le_total b a⟩

instance : IsTrans ℕ natGe := ⟨fun _ _ _ h1 h2 => le_trans h2 h1⟩

/-- The month window emitted for one (year, month) pair: labelled with the
calendar month name, spanning the first to the calendar-correct last day. -/
def monthWindow (ym : ℕ × ℕ) : String × Date × Date :=
  (monthName ym.2, (⟨ym.1, ym.2, 1⟩ : Date), (⟨ym.1, ym.2, monthLength ym.1 ym.2⟩ : Date))

/-- Body of `get_periods` on the (sorted) list of record dates: empty input
gives no windows; otherwise at most 3 month windows for the most recent
distinct (year, month) pairs in descending order, then the most recent
year's window, then the "All period" window spanning `min(dates)` to
`max(dates)`. -/
def periodsOfDates : List Date → List (String × Date × Date)
  | [] => []
  | d :: ds =>
      let dates := d :: ds
      let uniqueMonths :=
        List.insertionSort pairGe ((dates.map (fun x => (x.year, x.month))).dedup)
      let monthWins := (uniqueMonths.take 3).map monthWindow
      let uniqueYears :=
        List.insertionSort natGe ((dates.map (fun x => x.year)).dedup)
      let yearWins :=
        match uniqueYears with
        | [] => []
        | y :: _ => [((toString y), (⟨y, 1, 1⟩ : Date), (⟨y, 12, 31⟩ : Date))]
      let earliest := ds.foldl dateMin d
      let latest := ds.foldl dateMax d
      monthWins ++ yearWins ++ [("All period", earliest, latest)]

/-- The period deriver `get_periods(csv_file)`: collect the record dates,
sort them (`dates.sort()`), and derive the candidate windows. -/
def get_periods (rows : List Row) : List (String × Date × Date) :=
  periodsOfDates (List.insertionSort dateLe (rows.map (fun r => r.date)))

/-- A rational that is a whole number of cents (every `round(x, 2)` result
is one); the greedy sweep preserves this shape. -/
def isCent (q : ℚ) : Prop := ∃ k : ℤ, q = (k : ℚ) / 100

/-- Concrete ledger of the spec's worked scenario:
records `[(A,10),(B,30),(C,20)]` across January-March 2024. -/
def exRows : List Row :=
  [ { date := ⟨2024, 1, 5⟩, user := "A", category := "food", price := some 10, comment := "" }
  , { date := ⟨2024, 2, 10⟩, user := "B", category := "food", price := some 30, comment := "" }
  , { date := ⟨2024, 3, 15⟩, user := "C", category := "taxi", price := some 20, comment := "" } ]

/-- The participants of the worked scenario. -/
def exUsers : List String := ["A", "B", "C"]

/-- A row whose `Price` field does not parse. -/
def badRow : Row :=
  { date := ⟨2024, 1, 7⟩, user := "A", category := "food", price := none, comment := "oops" }

/-- Window covering all of 2024. -/
def exStart : Date := ⟨2024, 1, 1⟩

/-- End of the 2024 window. -/
def exEnd : Date := ⟨2024, 12, 31⟩

/-- Ledger refuting the claimed `0.01` bound on the balance-sum residual:
four participants spend `0.03` each and a fifth spends nothing, so the
average is `0.024` and every one of the five rounded balances picks up a
`+0.004` rounding error. -/
def c5Rows : List Row :=
  [ { date := ⟨2024, 1, 1⟩, user := "A", category := "x", price := some (3 / 100), comment := "" }
  , { date := ⟨2024, 1, 2⟩, user := "B", category := "x", price := some (3 / 100), comment := "" }
  , { date := ⟨2024, 1, 3⟩, user := "C", category := "x", price := some (3 / 100), comment := "" }
  , { date := ⟨2024, 1, 4⟩, user := "D", category := "x", price := some (3 / 100), comment := "" } ]

/-- Participants for the balance-sum counterexample. -/
def c5Users : List String := ["A", "B", "C", "D", "E"]

/-- Single-row ledger whose spend, `10.005`, is not a whole number of
cents, so the reported (rounded) average differs from the spend. -/
def c7Rows : List Row :=
  [ { date := ⟨2024, 1, 1⟩, user := "A", category := "x", price := some (2001 / 200), comment := "" } ]

/-! ### Association-list (Python dict) lemmas -/

theorem dget_dset_self (m : List (String × ℚ)) (k : String) (v : ℚ) :
    dget (dset m k v) k = v := by
  induction m with
  | nil => simp [dget, dset]
  | cons e rest ih =>
    obtain ⟨k', v'⟩ := e
    by_cases h : k' = k
    · simp [dget, dset, h]
    · simp [dget, dset, h, ih]

theorem dget_dset_ne (m : List (String × ℚ)) (k k' : String) (v : ℚ) (h : k ≠ k') :
    dget (dset m k v) k' = dget m k' := by
  induction m with
  | nil => simp [dget, dset, h]
  | cons e rest ih =>
    obtain ⟨a, b⟩ := e
    by_cases ha : a = k
    · subst ha; simp [dget, dset, h]
    · simp [dget, dset, ha, ih]

theorem keys_cons (e : String × ℚ) (rest : List (String × ℚ)) :
    keys (e :: rest) = e.1 :: keys rest := rfl

theorem keys_dset_of_mem (m : List (String × ℚ)) (k : String) (v : ℚ) :
    k ∈ keys m → keys (dset m k v) = keys m := by
  induction m with
  | nil => intro h; simp [keys] at h
  | cons e rest ih =>
    intro h
    obtain ⟨a, b⟩ := e
    by_cases ha : a = k
    · subst ha; simp [keys, dset]
    · have hk : k ∈ keys rest := by
        rw [keys_cons] at h
        rcases List.mem_cons.mp h with h1 | h1
        · exact absurd h1.symm ha
        · exact h1
      have hstep : dset ((a, b) :: rest) k v = (a, b) :: dset rest k v := by
        simp [dset, ha]
      rw [hstep, keys_cons, keys_cons, ih hk]

theorem sumVals_dset (m : List (String × ℚ)) (k : String) (a : ℚ) :
    sumVals (dset m k (dget m k + a)) = sumVals m + a := by
  induction m with
  | nil => simp [sumVals, dset, dget]
  | cons e rest ih =>
    obtain ⟨k', v'⟩ := e
    by_cases h : k' = k
    · subst h; simp [sumVals, dset, dget]; ring
    · simp only [dget, dset, if_neg h, sumVals, List.map_cons, List.sum_cons] at ih ⊢
      rw [ih]; ring

theorem dget_map_pair (l : List String) (f : String → ℚ) (u : String) (hu : u ∈ l) :
    dget (l.map (fun w => (w, f w))) u = f u := by
  induction l with
  | nil => simp at hu
  | cons a rest ih =>
    by_cases ha : a = u
    · subst ha; simp [dget]
    · have : u ∈ rest := by
        rcases List.mem_cons.mp hu with h | h
        · exact absurd h.symm ha
        · exact h
      simp [dget, ha, ih this]

theorem dget_map_zero (l : List String) (u : String) :
    dget (l.map (fun w => (w, (0 : ℚ)))) u = 0 := by
  induction l with
  | nil => simp [dget]
  | cons a rest ih => by_cases ha : a = u <;> simp [dget, ha, ih]

theorem keys_map_pair (l : List String) (f : String → ℚ) :
    keys (l.map (fun w => (w, f w))) = l := by
  induction l with
  | nil => rfl
  | cons a rest ih => rw [List.map_cons, keys_cons, ih]

theorem sumVals_map_pair (l : List String) (f : String → ℚ) :
    sumVals (l.map (fun w => (w, f w))) = (l.map f).sum := by
  induction l with
  | nil => rfl
  | cons a rest ih =>
    simp only [List.map_cons, sumVals, List.sum_cons] at ih ⊢
    rw [ih]

theorem pairs_nodup_keys_inj (m : List (String × ℚ)) :
    (keys m).Nodup → ∀ x ∈ m, ∀ y ∈ m, x.1 = y.1 → x = y := by
  induction m with
  | nil => intro _ x hx; simp at hx
  | cons e rest ih =>
    intro h
    rw [keys_cons] at h
    obtain ⟨hhead, htail⟩ := List.nodup_cons.mp h
    intro x hx y hy hxy
    rcases List.mem_cons.mp hx with rfl | hx' <;> rcases List.mem_cons.mp hy with rfl | hy'
    · rfl
    · exact absurd (hxy ▸ List.mem_map_of_mem (fun e => e.1) hy') hhead
    · exact absurd (hxy.symm ▸ List.mem_map_of_mem (fun e => e.1) hx') hhead
    · exact ih htail x hx' y hy' hxy

theorem sum_map_dget (m : List (String × ℚ)) :
    (keys m).Nodup → ((keys m).map (fun k => dget m k)).sum = sumVals m := by
  induction m with
  | nil => intro _; simp [keys, sumVals]
  | cons e rest ih =>
    intro h
    obtain ⟨a, b⟩ := e
    rw [keys_cons] at h
    obtain ⟨hhead, htail⟩ := List.nodup_cons.mp h
    have hmap : (keys rest).map (fun k => dget ((a, b) :: rest) k)
        = (keys rest).map (fun k => dget rest k) := by
      apply List.map_congr_left
      intro k hk
      have hak : a ≠ k := fun hak => hhead (hak ▸ hk)
      simp [dget, hak]
    rw [keys_cons, List.map_cons, List.sum_cons, hmap, ih htail]
    simp [dget, sumVals]

/-! ### Generic list-sum lemmas -/

theorem list_sum_map_add {α : Type} (l : List α) (f g : α → ℚ) :
    (l.map (fun x => f x + g x)).sum = (l.map f).sum + (l.map g).sum := by
  induction l with
  | nil => simp
  | cons a rest ih => simp [ih]; ring

theorem list_sum_map_sub {α : Type} (l : List α) (f g : α → ℚ) :
    (l.map (fun x => f x - g x)).sum = (l.map f).sum - (l.map g).sum := by
  induction l with
  | nil => simp
  | cons a rest ih => simp [ih]; ring

theorem list_sum_map_const {α : Type} (l : List α) (c : ℚ) :
    (l.map (fun _ => c)).sum = (l.length : ℚ) * c := by
  induction l with
  | nil => simp
  | cons a rest ih => simp [ih]; ring

theorem abs_list_sum_le (l : List ℚ) : |l.sum| ≤ (l.map (fun x => |x|)).sum := by
  induction l with
  | nil => simp
  | cons a rest ih =>
    simp only [List.sum_cons, List.map_cons]
    exact le_trans (abs_add a rest.sum) (by linarith)

theorem list_sum_le_sum {α : Type} (l : List α) (f g : α → ℚ)
    (h : ∀ x ∈ l, f x ≤ g x) : (l.map f).sum ≤ (l.map g).sum := by
  induction l with
  | nil => simp
  | cons a rest ih =>
    simp only [List.map_cons, List.sum_cons]
    have := h a (List.mem_cons_self a rest)
    have := ih (fun x hx => h x (List.mem_cons_of_mem a hx))
    linarith

/-! ### firstDedup lemmas -/

theorem mem_firstDedupGo (l : List String) :
    ∀ (seen : List String) (x : String),
      x ∈ firstDedupGo seen l ↔ x ∈ l ∧ x ∉ seen := by
  induction l with
  | nil => intro seen x; simp [firstDedupGo]
  | cons u rest ih =>
    intro seen x
    by_cases hu : u ∈ seen
    · rw [firstDedupGo, if_pos hu, ih]
      constructor
      · rintro ⟨hx, hs⟩; exact ⟨List.mem_cons_of_mem u hx, hs⟩
      · rintro ⟨hx, hs⟩
        rcases List.mem_cons.mp hx with rfl | hx'
        · exact absurd hu hs
        · exact ⟨hx', hs⟩
    · rw [firstDedupGo, if_neg hu]
      constructor
      · intro hx
        rcases List.mem_cons.mp hx with rfl | hx'
        · exact ⟨List.mem_cons_self _ _, hu⟩
        · obtain ⟨h1, h2⟩ := (ih (seen ++ [u]) x).mp hx'
          refine ⟨List.mem_cons_of_mem u h1, fun hs => h2 ?_⟩
          exact List.mem_append_left _ hs
      · rintro ⟨hx, hs⟩
        rcases List.mem_cons.mp hx with rfl | hx'
        · exact List.mem_cons_self _ _
        · by_cases hxu : x = u
          · subst hxu; exact List.mem_cons_self _ _
          · refine List.mem_cons_of_mem u ((ih (seen ++ [u]) x).mpr ⟨hx', ?_⟩)
            intro hmem
            rcases List.mem_append.mp hmem with h1 | h1
            · exact hs h1
            · exact hxu (by simpa using h1)

theorem nodup_firstDedupGo (l : List String) :
    ∀ seen : List String, (firstDedupGo seen l).Nodup := by
  induction l with
  | nil => intro seen; simp [firstDedupGo]
  | cons u rest ih =>
    intro seen
    by_cases hu : u ∈ seen
    · rw [firstDedupGo, if_pos hu]; exact ih seen
    · rw [firstDedupGo, if_neg hu]
      refine List.nodup_cons.mpr ⟨fun hmem => ?_, ih (seen ++ [u])⟩
      obtain ⟨_, h2⟩ := (mem_firstDedupGo rest (seen ++ [u]) u).mp hmem
      exact h2 (List.mem_append_right _ (List.mem_singleton.mpr rfl))

theorem length_firstDedupGo_le (l : List String) :
    ∀ seen : List String, (firstDedupGo seen l).length ≤ l.length := by
  induction l with
  | nil => intro seen; simp [firstDedupGo]
  | cons u rest ih =>
    intro seen
    by_cases hu : u ∈ seen
    · rw [firstDedupGo, if_pos hu]
      exact le_trans (ih seen) (Nat.le_succ _)
    · rw [firstDedupGo, if_neg hu, List.length_cons]
      exact Nat.succ_le_succ (ih (seen ++ [u]))

theorem firstDedupGo_eq_self (l : List String) :
    ∀ seen : List String, (∀ x ∈ l, x ∉ seen) → l.Nodup →
      firstDedupGo seen l = l := by
  induction l with
  | nil => intro seen _ _; rfl
  | cons u rest ih =>
    intro seen h1 h2
    have hu : u ∉ seen := h1 u (List.mem_cons_self _ _)
    rw [firstDedupGo, if_neg hu]
    obtain ⟨hhead, htail⟩ := List.nodup_cons.mp h2
    congr 1
    apply ih (seen ++ [u]) _ htail
    intro x hx hmem
    rcases List.mem_append.mp hmem with hm | hm
    · exact h1 x (List.mem_cons_of_mem u hx) hm
    · have hxu : x = u := by simpa using hm
      exact hhead (hxu ▸ hx)

theorem mem_firstDedup (l : List String) (x : String) :
    x ∈ firstDedup l ↔ x ∈ l := by
  rw [firstDedup, mem_firstDedupGo]
  simp

theorem nodup_firstDedup (l : List String) : (firstDedup l).Nodup :=
  nodup_firstDedupGo l []

theorem length_firstDedup_le (l : List String) :
    (firstDedup l).length ≤ l.length :=
  length_firstDedupGo_le l []

theorem firstDedup_eq_self (l : List String) (h : l.Nodup) :
    firstDedup l = l :=
  firstDedupGo_eq_self l [] (by simp) h

/-! ### round2 and cent-multiple lemmas -/

theorem round2_isCent (q : ℚ) : isCent (round2 q) := ⟨round (100 * q), rfl⟩

theorem round2_zero : round2 0 = 0 := by
  simp [round2]

theorem isCent_round2_eq (q : ℚ) (h : isCent q) : round2 q = q := by
  obtain ⟨k, rfl⟩ := h
  have h100 : (100 : ℚ) * ((k : ℚ) / 100) = (k : ℚ) := by
    field_simp
  rw [round2, h100, round_intCast]

theorem isCent_sub (a b : ℚ) (ha : isCent a) (hb : isCent b) : isCent (a - b) := by
  obtain ⟨k, rfl⟩ := ha
  obtain ⟨j, rfl⟩ := hb
  exact ⟨k - j, by push_cast; ring⟩

theorem isCent_add (a b : ℚ) (ha : isCent a) (hb : isCent b) : isCent (a + b) := by
  obtain ⟨k, rfl⟩ := ha
  obtain ⟨j, rfl⟩ := hb
  exact ⟨k + j, by push_cast; ring⟩

theorem isCent_neg (a : ℚ) (ha : isCent a) : isCent (-a) := by
  obtain ⟨k, rfl⟩ := ha
  exact ⟨-k, by push_cast; ring⟩

theorem isCent_min (a b : ℚ) (ha : isCent a) (hb : isCent b) : isCent (min a b) := by
  rcases le_total a b with h | h
  · rw [min_eq_left h]; exact ha
  · rw [min_eq_right h]; exact hb

theorem isCent_pos_cent_le (q : ℚ) (h : isCent q) (h0 : 0 < q) : 1 / 100 ≤ q := by
  obtain ⟨k, rfl⟩ := h
  have hk : 0 < (k : ℚ) := by
    rcases div_pos_iff.mp h0 with ⟨hk, _⟩ | ⟨_, h100⟩
    · exact hk
    · norm_num at h100
  have hk1 : (1 : ℚ) ≤ (k : ℚ) := by
    exact_mod_cast (show 0 < k by exact_mod_cast hk)
  gcongr

theorem isCent_neg_le_cent (q : ℚ) (h : isCent q) (h0 : q < 0) : q ≤ -(1 / 100) := by
  have := isCent_pos_cent_le (-q) (isCent_neg q h) (by linarith)
  linarith

theorem isCent_abs_lt_cent (q : ℚ) (h : isCent q) (habs : |q| < 1 / 100) : q = 0 := by
  obtain ⟨k, rfl⟩ := h
  have h1 : |(k : ℚ)| < 1 := by
    rw [abs_div] at habs
    have : |(100 : ℚ)| = 100 := by norm_num
    rw [this] at habs
    linarith [habs]
  have h2 : |k| < 1 := by exact_mod_cast h1
  rw [abs_lt] at h2
  have h3 : k = 0 := by omega
  simp [h3]

theorem abs_round2_sub_le (q : ℚ) : |round2 q - q| ≤ 1 / 200 := by
  have heq : round2 q - q = ((round (100 * q) : ℤ) - 100 * q) / 100 := by
    rw [round2]; field_simp
  rw [heq, abs_div]
  have h100 : |(100 : ℚ)| = 100 := by norm_num
  rw [h100]
  have h1 : |((round (100 * q) : ℤ) : ℚ) - 100 * q| ≤ 1 / 2 := by
    rw [abs_sub_comm]
    exact abs_sub_round (100 * q)
  linarith

/-! ### Aggregator (`get_stat_for_period`) lemmas and claims -/

theorem statFold_none (start end_ : Date) (rows : List Row) :
    rows.foldl (statStep start end_) none = none := by
  induction rows with
  | nil => rfl
  | cons r rest ih => rw [List.foldl_cons]; exact ih

theorem statFold_bad (start end_ : Date) (rows : List Row) :
    ∀ s : Stats, (∃ r ∈ rows, inWindow start end_ r ∧ r.price = none) →
      rows.foldl (statStep start end_) (some s) = none := by
  induction rows with
  | nil => intro s h; simp at h
  | cons r rest ih =>
    intro s h
    rw [List.foldl_cons]
    obtain ⟨r', hr', hw, hp⟩ := h
    rcases List.mem_cons.mp hr' with rfl | hmem
    · have hstep : statStep start end_ (some s) r' = none := by
        simp [statStep, hw, hp]
      rw [hstep]; exact statFold_none start end_ rest
    · cases hstep : statStep start end_ (some s) r with
      | none => exact statFold_none start end_ rest
      | some s' => exact ih s' ⟨r', hmem, hw, hp⟩

/-- CLAIM C2: for every window and record set, `get_stat_for_period` fails
(raises, modelled as `none`) whenever some record whose date lies in the
window has an unparsable or missing amount field; it does not silently skip
such a record. -/
theorem claim_c2_stat_fails_on_bad_amount (rows : List Row) (start end_ : Date)
    (h : ∃ r ∈ rows, inWindow start end_ r ∧ r.price = none) :
    get_stat_for_period rows start end_ = none :=
  statFold_bad start end_ rows _ h

-- Witness for CLAIM C2 at a concrete ledger containing a malformed row
-- inside the 2024 window.
unseal Rat.add Rat.mul Rat.sub Rat.inv in
theorem claim_c2_stat_fails_on_bad_amount_witness :
    (∃ r ∈ exRows ++ [badRow], inWindow exStart exEnd r ∧ r.price = none)
      ∧ get_stat_for_period (exRows ++ [badRow]) exStart exEnd = none :=
  ⟨by decide, claim_c2_stat_fails_on_bad_amount (exRows ++ [badRow]) exStart exEnd (by decide)⟩

theorem statFold_skip (start end_ : Date) (rows : List Row) :
    ∀ s : Stats, (∀ r ∈ rows, ¬ inWindow start end_ r) →
      rows.foldl (statStep start end_) (some s) = some s := by
  induction rows with
  | nil => intro s _; rfl
  | cons r rest ih =>
    intro s h
    have hstep : statStep start end_ (some s) r = some s := by
      simp [statStep, h r (List.mem_cons_self _ _)]
    rw [List.foldl_cons, hstep]
    exact ih s (fun r' hr' => h r' (List.mem_cons_of_mem r hr'))

/-- CLAIM C10: on a window that contains none of the record dates,
`get_stat_for_period` returns without error a result with total `0` and
empty `by_category` / `by_user` dicts (no zero-filled entries). -/
theorem claim_c10_stat_empty_window (rows : List Row) (start end_ : Date)
    (h : ∀ r ∈ rows, ¬ inWindow start end_ r) :
    get_stat_for_period rows start end_
      = some { total := 0, by_category := [], by_user := [] } :=
  statFold_skip start end_ rows _ h

-- Witness for CLAIM C10: the 2024 ledger against a 2030 window.
unseal Rat.add Rat.mul Rat.sub Rat.inv in
theorem claim_c10_stat_empty_window_witness :
    (∀ r ∈ exRows, ¬ inWindow (⟨2030, 1, 1⟩ : Date) (⟨2030, 12, 31⟩ : Date) r)
      ∧ get_stat_for_period exRows ⟨2030, 1, 1⟩ ⟨2030, 12, 31⟩
          = some { total := 0, by_category := [], by_user := [] } :=
  ⟨by decide, claim_c10_stat_empty_window exRows ⟨2030, 1, 1⟩ ⟨2030, 12, 31⟩ (by decide)⟩

theorem statFold_ok (start end_ : Date) (rows : List Row) :
    ∀ s : Stats, (∀ r ∈ rows, inWindow start end_ r → (r.price).isSome = true) →
      ∃ st, rows.foldl (statStep start end_) (some s) = some st
        ∧ st.total = s.total
            + (((rows.filter (fun r => decide (inWindow start end_ r))).map rowAmt).sum)
        ∧ sumVals st.by_category = sumVals s.by_category
            + (((rows.filter (fun r => decide (inWindow start end_ r))).map rowAmt).sum)
        ∧ sumVals st.by_user = sumVals s.by_user
            + (((rows.filter (fun r => decide (inWindow start end_ r))).map rowAmt).sum) := by
  induction rows with
  | nil => intro s _; exact ⟨s, rfl, by simp, by simp, by simp⟩
  | cons r rest ih =>
    intro s h
    by_cases hw : inWindow start end_ r
    · obtain ⟨p, hp⟩ := Option.isSome_iff_exists.mp (h r (List.mem_cons_self _ _) hw)
      have hstep : statStep start end_ (some s) r
          = some { total := s.total + p
                   by_category := dset s.by_category r.category (dget s.by_category r.category + p)
                   by_user := dset s.by_user r.user (dget s.by_user r.user + p) } := by
        simp [statStep, hw, hp]
      obtain ⟨st, hfold, h1, h2, h3⟩ :=
        ih _ (fun r' hr' hw' => h r' (List.mem_cons_of_mem r hr') hw')
      refine ⟨st, by rw [List.foldl_cons, hstep]; exact hfold, ?_, ?_, ?_⟩
      · rw [h1]
        simp only [List.filter_cons, decide_eq_true_eq, if_pos hw, List.map_cons,
          List.sum_cons, rowAmt, hp, Option.getD_some]
        ring
      · rw [h2]
        simp only [sumVals_dset, List.filter_cons, decide_eq_true_eq, if_pos hw,
          List.map_cons, List.sum_cons, rowAmt, hp, Option.getD_some]
        ring
      · rw [h3]
        simp only [sumVals_dset, List.filter_cons, decide_eq_true_eq, if_pos hw,
          List.map_cons, List.sum_cons, rowAmt, hp, Option.getD_some]
        ring
    · have hstep : statStep start end_ (some s) r = some s := by
        simp [statStep, hw]
      obtain ⟨st, hfold, h1, h2, h3⟩ :=
        ih s (fun r' hr' hw' => h r' (List.mem_cons_of_mem r hr') hw')
      refine ⟨st, by rw [List.foldl_cons, hstep]; exact hfold, ?_, ?_, ?_⟩ <;>
        simpa [List.filter_cons, hw] using (by assumption)

/-- CLAIM C6: on a record set whose in-window rows all parse,
`get_stat_for_period` succeeds and its `total` equals the sum of the amounts
of exactly the rows whose date lies in `[start, end]`, and equals the sum of
each of the two breakdown dicts. -/
theorem claim_c6_stat_invariant (rows : List Row) (start end_ : Date)
    (h : ∀ r ∈ rows, inWindow start end_ r → (r.price).isSome = true) :
    ∃ st, get_stat_for_period rows start end_ = some st
      ∧ st.total = (((rows.filter (fun r => decide (inWindow start end_ r))).map rowAmt).sum)
      ∧ st.total = sumVals st.by_category
      ∧ st.total = sumVals st.by_user := by
  obtain ⟨st, hfold, h1, h2, h3⟩ :=
    statFold_ok start end_ rows { total := 0, by_category := [], by_user := [] } h
  have hz : sumVals ([] : List (String × ℚ)) = 0 := rfl
  rw [hz, zero_add] at h2 h3
  rw [zero_add] at h1
  exact ⟨st, hfold, h1, h1.trans h2.symm, h1.trans h3.symm⟩

-- Witness for CLAIM C6 on the worked scenario (total 60, split over two
-- categories and three users).
unseal Rat.add Rat.mul Rat.sub Rat.inv in
theorem claim_c6_stat_invariant_witness :
    (∀ r ∈ exRows, inWindow exStart exEnd r → (r.price).isSome = true)
      ∧ ∃ st, get_stat_for_period exRows exStart exEnd = some st
          ∧ st.total = (((exRows.filter (fun r => decide (inWindow exStart exEnd r))).map rowAmt).sum)
          ∧ st.total = sumVals st.by_category
          ∧ st.total = sumVals st.by_user :=
  ⟨by decide, claim_c6_stat_invariant exRows exStart exEnd (by decide)⟩

/-! ### Export filter (`get_csv_for_period`) claim -/

theorem csvFold (start end_ : Date) (rows : List Row) :
    ∀ acc : List Row,
      rows.foldl (fun acc r => if inWindow start end_ r then acc ++ [r] else acc) acc
        = acc ++ rows.filter (fun r => decide (inWindow start end_ r)) := by
  induction rows with
  | nil => intro acc; simp
  | cons r rest ih =>
    intro acc
    by_cases hw : inWindow start end_ r
    · rw [List.foldl_cons, if_pos hw, ih]
      simp [List.filter_cons, hw]
    · rw [List.foldl_cons, if_neg hw, ih]
      simp [List.filter_cons, hw]

/-- CLAIM C8: the export filter emits exactly the rows whose date portion
falls in `[start, end]` (in original order, each row verbatim), and it does
not fail on — indeed it re-emits — in-window rows whose amount field is
malformed (`price = none`), which the aggregator would reject. -/
theorem claim_c8_export_filter (rows : List Row) (start end_ : Date) :
    get_csv_for_period rows start end_
        = rows.filter (fun r => decide (inWindow start end_ r))
      ∧ (∀ r ∈ rows, r.price = none → inWindow start end_ r →
          r ∈ get_csv_for_period rows start end_) := by
  have hfilter : get_csv_for_period rows start end_
      = rows.filter (fun r => decide (inWindow start end_ r)) := by
    rw [get_csv_for_period, csvFold start end_ rows, List.nil_append]
  refine ⟨hfilter, fun r hr hp hw => ?_⟩
  rw [hfilter]
  exact List.mem_filter.mpr ⟨hr, by simpa using hw⟩

/-! ### Settlement spend-summing lemmas -/

theorem keys_initSpent (usernames : List String) :
    keys (initSpent usernames) = firstDedup usernames :=
  keys_map_pair _ _

theorem dget_initSpent (usernames : List String) (u : String) :
    dget (initSpent usernames) u = 0 :=
  dget_map_zero _ _

theorem spentStep_keys (usernames : List String) (acc : List (String × ℚ)) (row : Row)
    (h : ∀ u ∈ usernames, u ∈ keys acc) :
    keys (spentStep usernames acc row) = keys acc := by
  rw [spentStep]
  by_cases hmem : row.user ∈ usernames
  · rw [if_pos hmem]
    cases hp : row.price with
    | none => rfl
    | some a => exact keys_dset_of_mem acc row.user _ (h row.user hmem)
  · rw [if_neg hmem]

theorem spentFold_keys (usernames : List String) (rows : List Row) :
    ∀ acc : List (String × ℚ), (∀ u ∈ usernames, u ∈ keys acc) →
      keys (rows.foldl (spentStep usernames) acc) = keys acc := by
  induction rows with
  | nil => intro acc _; rfl
  | cons r rest ih =>
    intro acc h
    rw [List.foldl_cons]
    have hstep := spentStep_keys usernames acc r h
    rw [ih (spentStep usernames acc r) (fun u hu => hstep ▸ h u hu), hstep]

theorem keys_spentMap (rows : List Row) (usernames : List String) :
    keys (spentMap rows usernames) = firstDedup usernames := by
  rw [spentMap, spentFold_keys usernames rows (initSpent usernames)
    (fun u hu => by rw [keys_initSpent]; exact (mem_firstDedup usernames u).mpr hu)]
  exact keys_initSpent usernames

theorem spentFold_dget (usernames : List String) (u : String) (hu : u ∈ usernames)
    (rows : List Row) :
    ∀ acc : List (String × ℚ), (∀ w ∈ usernames, w ∈ keys acc) →
      dget (rows.foldl (spentStep usernames) acc) u
        = dget acc u + ((rows.filter (fun r => decide (r.user = u))).map rowAmt).sum := by
  induction rows with
  | nil => intro acc _; simp
  | cons r rest ih =>
    intro acc hk
    rw [List.foldl_cons]
    have hkeys := spentStep_keys usernames acc r hk
    have hk' : ∀ w ∈ usernames, w ∈ keys (spentStep usernames acc r) :=
      fun w hw => hkeys ▸ hk w hw
    rw [ih (spentStep usernames acc r) hk']
    by_cases hru : r.user = u
    · have hmem : r.user ∈ usernames := hru ▸ hu
      cases hp : r.price with
      | none =>
        have hstep : spentStep usernames acc r = acc := by
          rw [spentStep, if_pos hmem, hp]
        rw [hstep]
        simp [List.filter_cons, hru, rowAmt, hp]
      | some a =>
        have hstep : spentStep usernames acc r = dset acc r.user (dget acc r.user + a) := by
          rw [spentStep, if_pos hmem, hp]
        rw [hstep, hru, dget_dset_self]
        simp only [List.filter_cons, hru, decide_True, if_true, List.map_cons,
          List.sum_cons, rowAmt, hp, Option.getD_some]
        ring
    · have hdget : dget (spentStep usernames acc r) u = dget acc u := by
        rw [spentStep]
        by_cases hmem : r.user ∈ usernames
        · rw [if_pos hmem]
          cases hp : r.price with
          | none => rfl
          | some a => exact dget_dset_ne acc r.user u _ hru
        · rw [if_neg hmem]
      rw [hdget]
      simp [List.filter_cons, hru]

theorem dget_spentMap (rows : List Row) (usernames : List String) (u : String)
    (hu : u ∈ usernames) :
    dget (spentMap rows usernames) u
      = ((rows.filter (fun r => decide (r.user = u))).map rowAmt).sum := by
  rw [spentMap, spentFold_dget usernames u hu rows (initSpent usernames)
    (fun w hw => by rw [keys_initSpent]; exact (mem_firstDedup usernames w).mpr hw),
    dget_initSpent, zero_add]

theorem spentStep_skip (usernames : List String) (acc : List (String × ℚ)) (row : Row)
    (h : row.price = none ∨ row.user ∉ usernames) :
    spentStep usernames acc row = acc := by
  rw [spentStep]
  by_cases hmem : row.user ∈ usernames
  · rcases h with hp | hmem'
    · rw [if_pos hmem, hp]
    · exact absurd hmem hmem'
  · rw [if_neg hmem]

theorem spentMap_middle (usernames : List String) (r : Row) (l1 l2 : List Row)
    (h : r.price = none ∨ r.user ∉ usernames) :
    spentMap (l1 ++ r :: l2) usernames = spentMap (l1 ++ l2) usernames := by
  rw [spentMap, spentMap, List.foldl_append, List.foldl_append, List.foldl_cons,
    spentStep_skip usernames _ r h]

/-- CLAIM C3: the settlement path never raises on a row whose amount field
is empty or unparsable (it is total by construction); such a row is skipped
and contributes nothing — deleting it from the ledger leaves the whole
settlement result unchanged. -/
theorem claim_c3_settlement_skips_bad_amount (usernames : List String) (r : Row)
    (l1 l2 : List Row) (h : r.price = none) :
    get_settlement (l1 ++ r :: l2) usernames = get_settlement (l1 ++ l2) usernames := by
  rw [get_settlement, get_settlement, spentMap_middle usernames r l1 l2 (Or.inl h)]

-- Witness for CLAIM C3: inserting the malformed row into the worked
-- scenario's ledger changes nothing.
unseal Rat.add Rat.mul Rat.sub Rat.inv in
theorem claim_c3_settlement_skips_bad_amount_witness :
    badRow.price = none
      ∧ get_settlement (exRows ++ badRow :: []) exUsers = get_settlement (exRows ++ []) exUsers :=
  ⟨by decide, claim_c3_settlement_skips_bad_amount exUsers badRow exRows [] (by decide)⟩

/-- CLAIM C9: the `spent` and `balances` dicts of `get_settlement` have
exactly the given participants as keys (first occurrence order); a
participant with no ledger row gets spend `0`; a row of a non-participant is
excluded entirely (deleting it changes nothing); and each returned balance
is the pre-sweep value `round(spent[u] - average, 2)` — the sweep never
modifies the `balances` dict. -/
theorem claim_c9_settlement_mappings (rows : List Row) (usernames : List String) :
    keys (get_settlement rows usernames).spent = firstDedup usernames
    ∧ keys (get_settlement rows usernames).balances = firstDedup usernames
    ∧ (∀ u, u ∈ firstDedup usernames ↔ u ∈ usernames)
    ∧ (∀ u ∈ usernames, (∀ r ∈ rows, r.user ≠ u) →
        dget (get_settlement rows usernames).spent u = 0)
    ∧ (∀ (r : Row) (l1 l2 : List Row), r.user ∉ usernames →
        get_settlement (l1 ++ r :: l2) usernames = get_settlement (l1 ++ l2) usernames)
    ∧ (∀ u ∈ usernames,
        dget (get_settlement rows usernames).balances u
          = round2 (dget (get_settlement rows usernames).spent u
              - (if 0 < usernames.length
                  then sumVals (get_settlement rows usernames).spent / (usernames.length : ℚ)
                  else 0))) := by
  refine ⟨keys_spentMap rows usernames, ?_, mem_firstDedup usernames, ?_, ?_, ?_⟩
  · exact keys_map_pair _ _
  · intro u hu hnone
    rw [show (get_settlement rows usernames).spent = spentMap rows usernames from rfl,
      dget_spentMap rows usernames u hu]
    have hnil : rows.filter (fun r => decide (r.user = u)) = [] := by
      apply List.filter_eq_nil_iff.mpr
      intro r hr
      simpa using hnone r hr
    rw [hnil]
    rfl
  · intro r l1 l2 hmem
    rw [get_settlement, get_settlement, spentMap_middle usernames r l1 l2 (Or.inr hmem)]
  · intro u hu
    have hbal : (get_settlement rows usernames).balances
        = (firstDedup usernames).map
            (fun w => (w, round2 (dget (spentMap rows usernames) w
              - avgFrom (spentMap rows usernames) usernames))) := rfl
    rw [hbal, dget_map_pair _ _ u ((mem_firstDedup usernames u).mpr hu)]
    rfl

/-! ### Greedy-sweep lemmas -/

theorem sweep_nil_left (fuel : ℕ) (dl : List (String × ℚ)) : sweep fuel [] dl = [] := by
  cases fuel <;> rfl

theorem sweep_nil_right (fuel : ℕ) (cl : List (String × ℚ)) : sweep fuel cl [] = [] := by
  cases fuel <;> cases cl <;> rfl

theorem sweep_step_analysis (cu du : String) (ca da : ℚ) (cs ds : List (String × ℚ))
    (hc : ∀ x ∈ ((cu, ca) :: cs : List (String × ℚ)), isCent x.2 ∧ 1 / 100 ≤ x.2)
    (hd : ∀ x ∈ ((du, da) :: ds : List (String × ℚ)), isCent x.2 ∧ x.2 ≤ -(1 / 100)) :
    (∀ x ∈ (if |round2 (ca - round2 (min ca (-da)))| < 1 / 100 then cs
            else (cu, round2 (ca - round2 (min ca (-da)))) :: cs), isCent x.2 ∧ 1 / 100 ≤ x.2)
    ∧ (∀ x ∈ (if |round2 (da + round2 (min ca (-da)))| < 1 / 100 then ds
            else (du, round2 (da + round2 (min ca (-da)))) :: ds), isCent x.2 ∧ x.2 ≤ -(1 / 100))
    ∧ (if |round2 (ca - round2 (min ca (-da)))| < 1 / 100 then cs
        else (cu, round2 (ca - round2 (min ca (-da)))) :: cs).length
      + (if |round2 (da + round2 (min ca (-da)))| < 1 / 100 then ds
          else (du, round2 (da + round2 (min ca (-da)))) :: ds).length
      ≤ cs.length + ds.length + 1
    ∧ 0 < round2 (min ca (-da)) := by
  obtain ⟨hca, h1ca⟩ := hc (cu, ca) (List.mem_cons_self _ _)
  obtain ⟨hda, h1da⟩ := hd (du, da) (List.mem_cons_self _ _)
  have hmc : isCent (min ca (-da)) := isCent_min _ _ hca (isCent_neg da hda)
  have h1m : 1 / 100 ≤ min ca (-da) := le_min h1ca (by linarith)
  have hr : round2 (min ca (-da)) = min ca (-da) := isCent_round2_eq _ hmc
  have hpos : (0 : ℚ) < min ca (-da) := by linarith
  have hge : 0 ≤ ca - min ca (-da) := by
    have := min_le_left ca (-da); linarith
  have hle : da + min ca (-da) ≤ 0 := by
    have := min_le_right ca (-da); linarith
  have hcc : isCent (ca - min ca (-da)) := isCent_sub _ _ hca hmc
  have hcd : isCent (da + min ca (-da)) := isCent_add _ _ hda hmc
  have hrr : round2 (ca - round2 (min ca (-da))) = ca - min ca (-da) := by
    rw [hr]; exact isCent_round2_eq _ hcc
  have hdd : round2 (da + round2 (min ca (-da))) = da + min ca (-da) := by
    rw [hr]; exact isCent_round2_eq _ hcd
  have hzero : ca - min ca (-da) = 0 ∨ da + min ca (-da) = 0 := by
    rcases le_total ca (-da) with hmin | hmin
    · left; rw [min_eq_left hmin]; ring
    · right; rw [min_eq_right hmin]; ring
  refine ⟨?_, ?_, ?_, by rw [hr]; exact hpos⟩
  · intro x hx
    by_cases h1 : |round2 (ca - round2 (min ca (-da)))| < 1 / 100
    · rw [if_pos h1] at hx
      exact hc x (List.mem_cons_of_mem _ hx)
    · rw [if_neg h1] at hx
      rcases List.mem_cons.mp hx with rfl | hxx
      · refine ⟨by rw [hrr]; exact hcc, ?_⟩
        rw [hrr] at h1 ⊢
        have habs : 1 / 100 ≤ |ca - min ca (-da)| := not_lt.mp h1
        rwa [abs_of_nonneg hge] at habs
      · exact hc x (List.mem_cons_of_mem _ hxx)
  · intro x hx
    by_cases h1 : |round2 (da + round2 (min ca (-da)))| < 1 / 100
    · rw [if_pos h1] at hx
      exact hd x (List.mem_cons_of_mem _ hx)
    · rw [if_neg h1] at hx
      rcases List.mem_cons.mp hx with rfl | hxx
      · refine ⟨by rw [hdd]; exact hcd, ?_⟩
        rw [hdd] at h1 ⊢
        have habs : 1 / 100 ≤ |da + min ca (-da)| := not_lt.mp h1
        rw [abs_of_nonpos hle] at habs
        linarith
      · exact hd x (List.mem_cons_of_mem _ hxx)
  · rcases hzero with hz | hz
    · have h1 : |round2 (ca - round2 (min ca (-da)))| < 1 / 100 := by
        rw [hrr, hz]; norm_num
      rw [if_pos h1]
      split_ifs
      · omega
      · simp only [List.length_cons]; omega
    · have h1 : |round2 (da + round2 (min ca (-da)))| < 1 / 100 := by
        rw [hdd, hz]; norm_num
      rw [if_pos h1]
      split_ifs
      · omega
      · simp only [List.length_cons]; omega

theorem sweep_amount_pos (fuel : ℕ) :
    ∀ (cl dl : List (String × ℚ)) (tx : Tx), tx ∈ sweep fuel cl dl → 0 < tx.amount := by
  induction fuel with
  | zero => intro cl dl tx h; simp [sweep] at h
  | succ f ih =>
    intro cl dl tx h
    rcases cl with _ | ⟨⟨cu, ca⟩, cs⟩
    · rw [sweep_nil_left] at h; simp at h
    rcases dl with _ | ⟨⟨du, da⟩, ds⟩
    · rw [sweep_nil_right] at h; simp at h
    simp only [sweep] at h
    rcases List.mem_append.mp h with h1 | h1
    · by_cases hp : 0 < round2 (min ca (-da))
      · rw [if_pos hp] at h1
        have htx : tx = { from_ := du, to_ := cu, amount := round2 (min ca (-da)) } := by
          simpa using h1
        rw [htx]; exact hp
      · rw [if_neg hp] at h1; simp at h1
    · exact ih _ _ tx h1

theorem sweep_from_ne_to (fuel : ℕ) :
    ∀ (cl dl : List (String × ℚ)),
      (∀ x ∈ cl, ∀ y ∈ dl, x.1 ≠ y.1) →
      ∀ tx ∈ sweep fuel cl dl, tx.from_ ≠ tx.to_ := by
  induction fuel with
  | zero => intro cl dl _ tx h; simp [sweep] at h
  | succ f ih =>
    intro cl dl hdisj tx h
    rcases cl with _ | ⟨⟨cu, ca⟩, cs⟩
    · rw [sweep_nil_left] at h; simp at h
    rcases dl with _ | ⟨⟨du, da⟩, ds⟩
    · rw [sweep_nil_right] at h; simp at h
    simp only [sweep] at h
    rcases List.mem_append.mp h with h1 | h1
    · by_cases hp : 0 < round2 (min ca (-da))
      · rw [if_pos hp] at h1
        have htx : tx = { from_ := du, to_ := cu, amount := round2 (min ca (-da)) } := by
          simpa using h1
        rw [htx]
        intro he
        exact hdisj (cu, ca) (List.mem_cons_self _ _) (du, da) (List.mem_cons_self _ _) he.symm
      · rw [if_neg hp] at h1; simp at h1
    · refine ih _ _ ?_ tx h1
      intro x hx y hy
      have hx' : x.1 = cu ∨ x ∈ cs := by
        by_cases h2 : |round2 (ca - round2 (min ca (-da)))| < 1 / 100
        · rw [if_pos h2] at hx; exact Or.inr hx
        · rw [if_neg h2] at hx
          rcases List.mem_cons.mp hx with rfl | hmm
          · exact Or.inl rfl
          · exact Or.inr hmm
      have hy' : y.1 = du ∨ y ∈ ds := by
        by_cases h2 : |round2 (da + round2 (min ca (-da)))| < 1 / 100
        · rw [if_pos h2] at hy; exact Or.inr hy
        · rw [if_neg h2] at hy
          rcases List.mem_cons.mp hy with rfl | hmm
          · exact Or.inl rfl
          · exact Or.inr hmm
      rcases hx' with hx1 | hx1 <;> rcases hy' with hy1 | hy1
      · rw [hx1, hy1]
        exact hdisj (cu, ca) (List.mem_cons_self _ _) (du, da) (List.mem_cons_self _ _)
      · rw [hx1]
        exact hdisj (cu, ca) (List.mem_cons_self _ _) y (List.mem_cons_of_mem _ hy1)
      · rw [hy1]
        exact hdisj x (List.mem_cons_of_mem _ hx1) (du, da) (List.mem_cons_self _ _)
      · exact hdisj x (List.mem_cons_of_mem _ hx1) y (List.mem_cons_of_mem _ hy1)

theorem sweep_length_le (fuel : ℕ) :
    ∀ (cl dl : List (String × ℚ)),
      (∀ x ∈ cl, isCent x.2 ∧ 1 / 100 ≤ x.2) →
      (∀ x ∈ dl, isCent x.2 ∧ x.2 ≤ -(1 / 100)) →
      (sweep fuel cl dl).length ≤ cl.length + dl.length - 1 := by
  induction fuel with
  | zero => intro cl dl _ _; simp [sweep]
  | succ f ih =>
    intro cl dl hc hd
    rcases cl with _ | ⟨⟨cu, ca⟩, cs⟩
    · rw [sweep_nil_left]; simp
    rcases dl with _ | ⟨⟨du, da⟩, ds⟩
    · rw [sweep_nil_right]; simp
    obtain ⟨hC', hD', hlen', hpos⟩ := sweep_step_analysis cu du ca da cs ds hc hd
    simp only [sweep, if_pos hpos]
    have hih := ih _ _ hC' hD'
    simp only [List.length_append, List.length_cons, List.length_nil]
    omega

theorem sweep_fuel_add (f1 : ℕ) :
    ∀ (f2 : ℕ) (cl dl : List (String × ℚ)),
      cl.length + dl.length ≤ f1 → cl.length + dl.length ≤ f2 →
      (∀ x ∈ cl, isCent x.2 ∧ 1 / 100 ≤ x.2) →
      (∀ x ∈ dl, isCent x.2 ∧ x.2 ≤ -(1 / 100)) →
      sweep f1 cl dl = sweep f2 cl dl := by
  induction f1 with
  | zero =>
    intro f2 cl dl h1 _ _ _
    have hcl : cl = [] := List.length_eq_zero.mp (by omega)
    subst hcl
    rw [sweep_nil_left, sweep_nil_left]
  | succ f ih =>
    intro f2 cl dl h1 h2 hc hd
    rcases cl with _ | ⟨⟨cu, ca⟩, cs⟩
    · rw [sweep_nil_left, sweep_nil_left]
    rcases dl with _ | ⟨⟨du, da⟩, ds⟩
    · rw [sweep_nil_right, sweep_nil_right]
    rcases f2 with _ | f2'
    · exfalso; simp only [List.length_cons] at h2; omega
    obtain ⟨hC', hD', hlen', hpos⟩ := sweep_step_analysis cu du ca da cs ds hc hd
    simp only [sweep]
    congr 1
    apply ih f2' _ _ ?_ ?_ hC' hD'
    · simp only [List.length_cons] at h1; omega
    · simp only [List.length_cons] at h2; omega

theorem length_filter_pos_neg (m : List (String × ℚ)) :
    (m.filter (fun e => decide (0 < e.2))).length
      + (m.filter (fun e => decide (e.2 < 0))).length ≤ m.length := by
  induction m with
  | nil => simp
  | cons e rest ih =>
    rcases lt_trichotomy (0 : ℚ) e.2 with h | h | h
    · have h2 : ¬ e.2 < 0 := by linarith
      simp only [List.filter_cons, decide_eq_true_eq, if_pos h, if_neg h2, List.length_cons]
      omega
    · have h1 : ¬ (0 : ℚ) < e.2 := by linarith
      have h2 : ¬ e.2 < 0 := by linarith
      simp only [List.filter_cons, decide_eq_true_eq, if_neg h1, if_neg h2, List.length_cons]
      omega
    · have h1 : ¬ (0 : ℚ) < e.2 := by linarith
      simp only [List.filter_cons, decide_eq_true_eq, if_neg h1, if_pos h, List.length_cons]
      omega

/-- CLAIM C1: for every ledger and non-empty participant list, every
transaction emitted by `get_settlement` has a strictly positive amount and
distinct payer and payee, and the number of emitted transactions is at most
`participant_count - 1`. -/
theorem claim_c1_settlement_guarantees (rows : List Row) (usernames : List String)
    (h : usernames ≠ []) :
    (∀ tx ∈ (get_settlement rows usernames).transactions, 0 < tx.amount ∧ tx.from_ ≠ tx.to_)
    ∧ (get_settlement rows usernames).transactions.length ≤ usernames.length - 1 := by
  have htx : (get_settlement rows usernames).transactions
      = txFrom (spentMap rows usernames) usernames := rfl
  have hbalkeys : keys (balancesFrom (spentMap rows usernames) usernames)
      = firstDedup usernames := keys_map_pair _ _
  have hbalnodup : (keys (balancesFrom (spentMap rows usernames) usernames)).Nodup := by
    rw [hbalkeys]; exact nodup_firstDedup usernames
  have hbalcent : ∀ x ∈ balancesFrom (spentMap rows usernames) usernames, isCent x.2 := by
    intro x hx
    obtain ⟨u, hu, rfl⟩ := List.mem_map.mp hx
    exact round2_isCent _
  have hcmem : ∀ x ∈ creditorsFrom (spentMap rows usernames) usernames,
      x ∈ balancesFrom (spentMap rows usernames) usernames ∧ 0 < x.2 := by
    intro x hx
    rw [creditorsFrom, List.mem_insertionSort] at hx
    obtain ⟨h1, h2⟩ := List.mem_filter.mp hx
    exact ⟨h1, by simpa using h2⟩
  have hdmem : ∀ x ∈ debtorsFrom (spentMap rows usernames) usernames,
      x ∈ balancesFrom (spentMap rows usernames) usernames ∧ x.2 < 0 := by
    intro x hx
    rw [debtorsFrom, List.mem_insertionSort] at hx
    obtain ⟨h1, h2⟩ := List.mem_filter.mp hx
    exact ⟨h1, by simpa using h2⟩
  have hC : ∀ x ∈ creditorsFrom (spentMap rows usernames) usernames,
      isCent x.2 ∧ 1 / 100 ≤ x.2 := by
    intro x hx
    obtain ⟨hb, hp⟩ := hcmem x hx
    exact ⟨hbalcent x hb, isCent_pos_cent_le _ (hbalcent x hb) hp⟩
  have hD : ∀ x ∈ debtorsFrom (spentMap rows usernames) usernames,
      isCent x.2 ∧ x.2 ≤ -(1 / 100) := by
    intro x hx
    obtain ⟨hb, hn⟩ := hdmem x hx
    exact ⟨hbalcent x hb, isCent_neg_le_cent _ (hbalcent x hb) hn⟩
  have hdisj : ∀ x ∈ creditorsFrom (spentMap rows usernames) usernames,
      ∀ y ∈ debtorsFrom (spentMap rows usernames) usernames, x.1 ≠ y.1 := by
    intro x hx y hy hxy
    obtain ⟨hxb, hxp⟩ := hcmem x hx
    obtain ⟨hyb, hyn⟩ := hdmem y hy
    have hxe : x = y := pairs_nodup_keys_inj _ hbalnodup x hxb y hyb hxy
    rw [hxe] at hxp
    linarith
  constructor
  · intro tx htxmem
    rw [htx, txFrom] at htxmem
    exact ⟨sweep_amount_pos _ _ _ tx htxmem, sweep_from_ne_to _ _ _ hdisj tx htxmem⟩
  · rw [htx, txFrom]
    have hlen := sweep_length_le
      ((creditorsFrom (spentMap rows usernames) usernames).length
        + (debtorsFrom (spentMap rows usernames) usernames).length)
      (creditorsFrom (spentMap rows usernames) usernames)
      (debtorsFrom (spentMap rows usernames) usernames) hC hD
    have hsum : (creditorsFrom (spentMap rows usernames) usernames).length
        + (debtorsFrom (spentMap rows usernames) usernames).length
        ≤ usernames.length := by
      rw [creditorsFrom, debtorsFrom, List.length_insertionSort, List.length_insertionSort]
      have h1 := length_filter_pos_neg (balancesFrom (spentMap rows usernames) usernames)
      have h2 : (balancesFrom (spentMap rows usernames) usernames).length
          = (firstDedup usernames).length := by
        rw [balancesFrom, List.length_map]
      have h3 := length_firstDedup_le usernames
      omega
    omega

-- Witness for CLAIM C1 on the worked scenario: three participants,
-- one transaction `A -> B` of `10`.
unseal Rat.add Rat.mul Rat.sub Rat.inv in
theorem claim_c1_settlement_guarantees_witness :
    exUsers ≠ []
      ∧ ((∀ tx ∈ (get_settlement exRows exUsers).transactions,
            0 < tx.amount ∧ tx.from_ ≠ tx.to_)
          ∧ (get_settlement exRows exUsers).transactions.length ≤ exUsers.length - 1) :=
  ⟨by decide, claim_c1_settlement_guarantees exRows exUsers (by decide)⟩

/-! ### Balance-sum claims (C5) -/

-- Counterexample to CLAIM C5 as stated: with five participants (four
-- spending 0.03 and one spending nothing) every rounded balance picks up a
-- +0.004 error and the balance sum is 0.02, outside the claimed 0.01.
unseal Rat.add Rat.mul Rat.sub Rat.inv in
theorem claim_c5_balance_sum_counterexample :
    ¬ |sumVals (get_settlement c5Rows c5Users).balances| ≤ 1 / 100 := by decide

/-- CLAIM C5 (amended): for a duplicate-free participant list, the sum of
the returned balances is within `0.005 * participant_count` of zero (each of
the `n` rounded balances contributes at most half a cent of rounding error;
the originally claimed fixed bound `0.01` fails for five participants, see
the counterexample). -/
theorem claim_c5_balance_sum_amended (rows : List Row) (usernames : List String)
    (h : usernames.Nodup) :
    |sumVals (get_settlement rows usernames).balances| ≤ (usernames.length : ℚ) / 200 := by
  have hfd : firstDedup usernames = usernames := firstDedup_eq_self usernames h
  have hbal : (get_settlement rows usernames).balances
      = usernames.map (fun u => (u, round2 (dget (spentMap rows usernames) u
          - avgFrom (spentMap rows usernames) usernames))) := by
    show balancesFrom _ _ = _
    rw [balancesFrom, hfd]
  rw [hbal, sumVals_map_pair]
  rcases eq_or_ne usernames [] with rfl | hne
  · simp
  · have hn : usernames.length ≠ 0 := fun hl => hne (List.length_eq_zero.mp hl)
    have hnq : (usernames.length : ℚ) ≠ 0 := Nat.cast_ne_zero.mpr hn
    have hkeys : keys (spentMap rows usernames) = usernames := by
      rw [keys_spentMap, hfd]
    have havg : avgFrom (spentMap rows usernames) usernames
        = sumVals (spentMap rows usernames) / (usernames.length : ℚ) := by
      rw [avgFrom, if_pos (Nat.pos_of_ne_zero hn)]
    have hsumdget : (usernames.map (fun u => dget (spentMap rows usernames) u)).sum
        = sumVals (spentMap rows usernames) := by
      have hsum := sum_map_dget (spentMap rows usernames) (by rw [hkeys]; exact h)
      rwa [hkeys] at hsum
    have hzero : (usernames.map (fun u => dget (spentMap rows usernames) u
        - avgFrom (spentMap rows usernames) usernames)).sum = 0 := by
      rw [list_sum_map_sub, hsumdget, list_sum_map_const, havg]
      have hcancel : (usernames.length : ℚ)
          * (sumVals (spentMap rows usernames) / (usernames.length : ℚ))
          = sumVals (spentMap rows usernames) := by
        field_simp
      rw [hcancel]
      ring
    have hsplit : (usernames.map (fun u => round2 (dget (spentMap rows usernames) u
          - avgFrom (spentMap rows usernames) usernames))).sum
        = (usernames.map (fun u => dget (spentMap rows usernames) u
            - avgFrom (spentMap rows usernames) usernames)).sum
          + (usernames.map (fun u => round2 (dget (spentMap rows usernames) u
              - avgFrom (spentMap rows usernames) usernames)
              - (dget (spentMap rows usernames) u
                - avgFrom (spentMap rows usernames) usernames))).sum := by
      rw [← list_sum_map_add]
      apply congrArg List.sum
      apply List.map_congr_left
      intro u _
      ring
    rw [hsplit, hzero, zero_add]
    have habs := abs_list_sum_le (usernames.map (fun u =>
      round2 (dget (spentMap rows usernames) u - avgFrom (spentMap rows usernames) usernames)
        - (dget (spentMap rows usernames) u - avgFrom (spentMap rows usernames) usernames)))
    have hbound : ((usernames.map (fun u =>
        round2 (dget (spentMap rows usernames) u - avgFrom (spentMap rows usernames) usernames)
          - (dget (spentMap rows usernames) u
            - avgFrom (spentMap rows usernames) usernames))).map (fun x => |x|)).sum
        ≤ (usernames.map (fun _ => (1 : ℚ) / 200)).sum := by
      rw [List.map_map]
      apply list_sum_le_sum
      intro u _
      exact abs_round2_sub_le _
    have hconst : (usernames.map (fun _ => (1 : ℚ) / 200)).sum
        = (usernames.length : ℚ) * (1 / 200) := list_sum_map_const _ _
    have hfinal : (usernames.length : ℚ) * (1 / 200) = (usernames.length : ℚ) / 200 := by
      ring
    linarith

-- Witness for the amended CLAIM C5 at the counterexample's own input: the
-- residual 0.02 does satisfy the corrected bound 5 * 0.005 = 0.025.
unseal Rat.add Rat.mul Rat.sub Rat.inv in
theorem claim_c5_balance_sum_amended_witness :
    c5Users.Nodup
      ∧ |sumVals (get_settlement c5Rows c5Users).balances| ≤ (c5Users.length : ℚ) / 200 :=
  ⟨by decide, claim_c5_balance_sum_amended c5Rows c5Users (by decide)⟩

/-! ### Equal-spend and single-participant claims (C7) -/

-- Counterexample to CLAIM C7 as stated: a single participant whose spend
-- 10.005 is not a whole number of cents; the reported average is the
-- rounded value 10.01, not the spend itself.
unseal Rat.add Rat.mul Rat.sub Rat.inv in
theorem claim_c7_single_participant_counterexample :
    (get_settlement c7Rows ["A"]).average ≠ dget (get_settlement c7Rows ["A"]).spent "A" := by
  decide

/-- CLAIM C7 (amended): for a non-empty duplicate-free participant list on
which every participant has the same recorded spend, the settlement yields
no transactions and every balance is `0`; and for a single participant the
reported average equals their own spend rounded to two decimals (hence the
spend itself whenever it is a whole number of cents — but not in general,
see the counterexample). -/
theorem claim_c7_equal_spend (rows : List Row) (usernames : List String) (s : ℚ)
    (h1 : usernames ≠ []) (h2 : usernames.Nodup)
    (h3 : ∀ u ∈ usernames, dget (get_settlement rows usernames).spent u = s) :
    ((get_settlement rows usernames).transactions = []
      ∧ ∀ u ∈ usernames, dget (get_settlement rows usernames).balances u = 0)
    ∧ ∀ (rows2 : List Row) (u : String),
        (get_settlement rows2 [u]).average
          = round2 (dget (get_settlement rows2 [u]).spent u) := by
  have hfd : firstDedup usernames = usernames := firstDedup_eq_self usernames h2
  have h3' : ∀ u ∈ usernames, dget (spentMap rows usernames) u = s := h3
  have hn : 0 < usernames.length := List.length_pos.mpr h1
  have hnq : (usernames.length : ℚ) ≠ 0 :=
    Nat.cast_ne_zero.mpr (Nat.pos_iff_ne_zero.mp hn)
  have hkeys : keys (spentMap rows usernames) = usernames := by
    rw [keys_spentMap, hfd]
  have hT : sumVals (spentMap rows usernames) = (usernames.length : ℚ) * s := by
    rw [← sum_map_dget (spentMap rows usernames) (by rw [hkeys]; exact h2), hkeys]
    rw [List.map_congr_left h3']
    exact list_sum_map_const _ _
  have havg : avgFrom (spentMap rows usernames) usernames = s := by
    rw [avgFrom, if_pos hn, hT, mul_div_cancel_left₀ _ hnq]
  have hbal : balancesFrom (spentMap rows usernames) usernames
      = usernames.map (fun u => (u, (0 : ℚ))) := by
    rw [balancesFrom, hfd]
    apply List.map_congr_left
    intro u hu
    rw [h3' u hu, havg, sub_self, round2_zero]
  refine ⟨⟨?_, ?_⟩, ?_⟩
  · show txFrom (spentMap rows usernames) usernames = []
    rw [txFrom, creditorsFrom, debtorsFrom, hbal]
    have hfil : (usernames.map (fun u => (u, (0 : ℚ)))).filter
        (fun e => decide (0 < e.2)) = [] := by
      apply List.filter_eq_nil_iff.mpr
      intro e he
      obtain ⟨u, hu, rfl⟩ := List.mem_map.mp he
      simp
    rw [hfil]
    exact sweep_nil_left _ _
  · intro u hu
    show dget (balancesFrom (spentMap rows usernames) usernames) u = 0
    rw [hbal]
    exact dget_map_zero usernames u
  · intro rows2 u
    have hkeys1 : keys (spentMap rows2 [u]) = [u] := by
      rw [keys_spentMap]
      rfl
    obtain ⟨v, hv⟩ : ∃ v, spentMap rows2 [u] = [(u, v)] := by
      cases hsp : spentMap rows2 [u] with
      | nil => rw [hsp] at hkeys1; simp [keys] at hkeys1
      | cons e rest =>
        obtain ⟨a, b⟩ := e
        rw [hsp, keys_cons] at hkeys1
        simp only [List.cons.injEq] at hkeys1
        obtain ⟨ha, hrest⟩ := hkeys1
        have hrestnil : rest = [] := List.map_eq_nil_iff.mp hrest
        refine ⟨b, ?_⟩
        rw [hrestnil, ha]
    show round2 (avgFrom (spentMap rows2 [u]) [u]) = round2 (dget (spentMap rows2 [u]) u)
    rw [hv]
    have hg : dget [(u, v)] u = v := by simp [dget]
    have ha : avgFrom [(u, v)] [u] = v := by
      rw [avgFrom]
      simp [sumVals]
    rw [hg, ha]

-- Witness for the amended CLAIM C7: participant A alone (spend 10, a whole
-- number of cents) gets balance 0, no transactions, and the rounded-spend
-- average.
unseal Rat.add Rat.mul Rat.sub Rat.inv in
theorem claim_c7_equal_spend_witness :
    (["A"] ≠ ([] : List String))
    ∧ dget (get_settlement exRows ["A"]).spent "A" = 10
    ∧ (get_settlement exRows ["A"]).transactions = []
    ∧ dget (get_settlement exRows ["A"]).balances "A" = 0
    ∧ (get_settlement exRows ["A"]).average
        = round2 (dget (get_settlement exRows ["A"]).spent "A") :=
  ⟨by decide, by decide,
    (claim_c7_equal_spend exRows ["A"] 10 (by decide) (by decide) (by decide)).1.1,
    (claim_c7_equal_spend exRows ["A"] 10 (by decide) (by decide) (by decide)).1.2 "A"
      (by decide),
    (claim_c7_equal_spend exRows ["A"] 10 (by decide) (by decide) (by decide)).2 exRows "A"⟩

/-! ### Date-order and fold-min/max lemmas -/

theorem dateLe_refl (a : Date) : dateLe a a := by unfold dateLe; omega

theorem dateLe_total (a b : Date) : dateLe a b ∨ dateLe b a := by unfold dateLe; omega

theorem dateLe_trans (a b c : Date) : dateLe a b → dateLe b c → dateLe a c := by
  unfold dateLe; omega

theorem dateMin_le_left (a b : Date) : dateLe (dateMin a b) a := by
  rw [dateMin]
  split_ifs with h
  · exact dateLe_refl a
  · rcases dateLe_total a b with h1 | h1
    · exact absurd h1 h
    · exact h1

theorem dateMin_le_right (a b : Date) : dateLe (dateMin a b) b := by
  rw [dateMin]
  split_ifs with h
  · exact h
  · exact dateLe_refl b

theorem dateMin_mem (a b : Date) : dateMin a b = a ∨ dateMin a b = b := by
  rw [dateMin]; split_ifs
  · exact Or.inl rfl
  · exact Or.inr rfl

theorem dateMax_ge_left (a b : Date) : dateLe a (dateMax a b) := by
  rw [dateMax]
  split_ifs with h
  · exact h
  · exact dateLe_refl a

theorem dateMax_ge_right (a b : Date) : dateLe b (dateMax a b) := by
  rw [dateMax]
  split_ifs with h
  · exact dateLe_refl b
  · rcases dateLe_total b a with h1 | h1
    · exact h1
    · exact absurd h1 h

theorem dateMax_mem (a b : Date) : dateMax a b = a ∨ dateMax a b = b := by
  rw [dateMax]; split_ifs
  · exact Or.inr rfl
  · exact Or.inl rfl

theorem foldl_dateMin_mem (ds : List Date) : ∀ d, ds.foldl dateMin d ∈ d :: ds := by
  induction ds with
  | nil => intro d; exact List.mem_cons_self _ _
  | cons e ds ih =>
    intro d
    rw [List.foldl_cons]
    rcases List.mem_cons.mp (ih (dateMin d e)) with hfold | hfold
    · rcases dateMin_mem d e with h1 | h1
      · rw [hfold, h1]; exact List.mem_cons_self _ _
      · rw [hfold, h1]
        exact List.mem_cons_of_mem _ (List.mem_cons_self _ _)
    · exact List.mem_cons_of_mem _ (List.mem_cons_of_mem _ hfold)

theorem foldl_dateMin_le (ds : List Date) :
    ∀ d x, x ∈ d :: ds → dateLe (ds.foldl dateMin d) x := by
  induction ds with
  | nil =>
    intro d x hx
    have hxd : x = d := by simpa using hx
    rw [hxd]
    exact dateLe_refl d
  | cons e ds ih =>
    intro d x hx
    rw [List.foldl_cons]
    rcases List.mem_cons.mp hx with hxd | hx'
    · rw [hxd]
      exact dateLe_trans _ _ _ (ih (dateMin d e) _ (List.mem_cons_self _ _))
        (dateMin_le_left d e)
    rcases List.mem_cons.mp hx' with hxe | hx''
    · rw [hxe]
      exact dateLe_trans _ _ _ (ih (dateMin d e) _ (List.mem_cons_self _ _))
        (dateMin_le_right d e)
    · exact ih (dateMin d e) x (List.mem_cons_of_mem _ hx'')

theorem foldl_dateMax_mem (ds : List Date) : ∀ d, ds.foldl dateMax d ∈ d :: ds := by
  induction ds with
  | nil => intro d; exact List.mem_cons_self _ _
  | cons e ds ih =>
    intro d
    rw [List.foldl_cons]
    rcases List.mem_cons.mp (ih (dateMax d e)) with hfold | hfold
    · rcases dateMax_mem d e with h1 | h1
      · rw [hfold, h1]; exact List.mem_cons_self _ _
      · rw [hfold, h1]
        exact List.mem_cons_of_mem _ (List.mem_cons_self _ _)
    · exact List.mem_cons_of_mem _ (List.mem_cons_of_mem _ hfold)

theorem foldl_dateMax_ge (ds : List Date) :
    ∀ d x, x ∈ d :: ds → dateLe x (ds.foldl dateMax d) := by
  induction ds with
  | nil =>
    intro d x hx
    have hxd : x = d := by simpa using hx
    rw [hxd]
    exact dateLe_refl d
  | cons e ds ih =>
    intro d x hx
    rw [List.foldl_cons]
    rcases List.mem_cons.mp hx with hxd | hx'
    · rw [hxd]
      exact dateLe_trans _ _ _ (dateMax_ge_left d e)
        (ih (dateMax d e) _ (List.mem_cons_self _ _))
    rcases List.mem_cons.mp hx' with hxe | hx''
    · rw [hxe]
      exact dateLe_trans _ _ _ (dateMax_ge_right d e)
        (ih (dateMax d e) _ (List.mem_cons_self _ _))
    · exact ih (dateMax d e) x (List.mem_cons_of_mem _ hx'')

theorem pairGe_refl (p : ℕ × ℕ) : pairGe p p := by unfold pairGe; omega

theorem natGe_refl (n : ℕ) : natGe n n := le_refl n

theorem sorted_take_complete {α : Type} (R : α → α → Prop) (full : List α) (n : ℕ)
    (hs : List.Sorted R full) (hnd : full.Nodup) (p : α)
    (hp : p ∈ full) (hnp : p ∉ full.take n) :
    (full.take n).length = n ∧ ∀ q ∈ full.take n, R q p ∧ q ≠ p := by
  have hsplit : full.take n ++ full.drop n = full := List.take_append_drop n full
  have hpd : p ∈ full.drop n := by
    have hp' : p ∈ full.take n ++ full.drop n := by rw [hsplit]; exact hp
    rcases List.mem_append.mp hp' with h1 | h1
    · exact absurd h1 hnp
    · exact h1
  constructor
  · have hne : full.drop n ≠ [] := fun hnil => by rw [hnil] at hpd; simp at hpd
    have hlen : ¬ (full.length ≤ n) := fun hle => hne (List.drop_eq_nil_of_le hle)
    rw [List.length_take]
    omega
  · intro q hq
    constructor
    · have hpw : List.Pairwise R (full.take n ++ full.drop n) := by
        rw [hsplit]; exact hs
      exact (List.pairwise_append.mp hpw).2.2 q hq p hpd
    · have hnd' : (full.take n ++ full.drop n).Nodup := by
        rw [hsplit]; exact hnd
      obtain ⟨_, _, hdisj⟩ := List.nodup_append.mp hnd'
      intro he
      exact hdisj hq (he ▸ hpd)

/-- CLAIM C4: `get_periods` on the empty record set returns no windows; on a
non-empty record set it returns at most 5 windows: month windows (labelled
with the calendar month name, spanning day 1 to the calendar-correct last
day, leap years included) for at most the 3 most recent distinct
(year, month) pairs in descending order, then the most recent year's
window `Jan 1 - Dec 31`, then an "All period" window spanning exactly the
minimum and maximum record dates. -/
theorem claim_c4_periods (rows : List Row) (h : rows ≠ []) :
    get_periods ([] : List Row) = []
    ∧ (get_periods rows).length ≤ 5
    ∧ (monthLength 2024 2 = 29 ∧ monthLength 2023 2 = 28
        ∧ monthLength 1900 2 = 28 ∧ monthLength 2000 2 = 29)
    ∧ ∃ (ms : List (ℕ × ℕ)) (y : ℕ) (lo hi : Date),
        get_periods rows
            = ms.map monthWindow
              ++ [(toString y, (⟨y, 1, 1⟩ : Date), (⟨y, 12, 31⟩ : Date)),
                  ("All period", lo, hi)]
        ∧ ms.length ≤ 3
        ∧ ms.Nodup
        ∧ List.Sorted pairGe ms
        ∧ (∀ p ∈ ms, p ∈ rows.map (fun r => (r.date.year, r.date.month)))
        ∧ (∀ p ∈ rows.map (fun r => (r.date.year, r.date.month)), p ∉ ms →
            ms.length = 3 ∧ ∀ q ∈ ms, pairGe q p ∧ q ≠ p)
        ∧ y ∈ rows.map (fun r => r.date.year)
        ∧ (∀ r ∈ rows, natGe y r.date.year)
        ∧ lo ∈ rows.map (fun r => r.date)
        ∧ hi ∈ rows.map (fun r => r.date)
        ∧ (∀ r ∈ rows, dateLe lo r.date ∧ dateLe r.date hi) := by
  have hdatesne : rows.map (fun r => r.date) ≠ [] := by
    intro hnil
    exact h (List.map_eq_nil_iff.mp hnil)
  have hsne : List.insertionSort dateLe (rows.map (fun r => r.date)) ≠ [] := by
    intro hnil
    have hlen := congrArg List.length hnil
    rw [List.length_insertionSort] at hlen
    exact hdatesne (List.length_eq_zero.mp hlen)
  obtain ⟨d, ds, hds⟩ := List.exists_cons_of_ne_nil hsne
  have hmemdates : ∀ x : Date, x ∈ d :: ds ↔ x ∈ rows.map (fun r => r.date) := by
    intro x
    rw [← hds]
    exact List.mem_insertionSort dateLe
  have hyne : List.insertionSort natGe (((d :: ds).map (fun x => x.year)).dedup) ≠ [] := by
    intro hnil
    have hmem : d.year ∈ List.insertionSort natGe (((d :: ds).map (fun x => x.year)).dedup) := by
      rw [List.mem_insertionSort, List.mem_dedup]
      exact List.mem_map_of_mem _ (List.mem_cons_self _ _)
    rw [hnil] at hmem
    simp at hmem
  obtain ⟨y, ys, hy⟩ := List.exists_cons_of_ne_nil hyne
  have hgp : get_periods rows = periodsOfDates (d :: ds) := by
    rw [get_periods, hds]
  have hbody : periodsOfDates (d :: ds)
      = ((List.insertionSort pairGe
            (((d :: ds).map (fun x => (x.year, x.month))).dedup)).take 3).map monthWindow
        ++ [(toString y, (⟨y, 1, 1⟩ : Date), (⟨y, 12, 31⟩ : Date)),
            ("All period", ds.foldl dateMin d, ds.foldl dateMax d)] := by
    simp only [periodsOfDates]
    rw [hy]
    simp
  have hfullsorted : List.Sorted pairGe (List.insertionSort pairGe
      (((d :: ds).map (fun x => (x.year, x.month))).dedup)) :=
    List.sorted_insertionSort pairGe _
  have hfullnodup : (List.insertionSort pairGe
      (((d :: ds).map (fun x => (x.year, x.month))).dedup)).Nodup :=
    ((List.perm_insertionSort pairGe _).nodup_iff).mpr (List.nodup_dedup _)
  have hpairmem : ∀ p : ℕ × ℕ, p ∈ (d :: ds).map (fun x => (x.year, x.month))
      ↔ p ∈ rows.map (fun r => (r.date.year, r.date.month)) := by
    intro p
    constructor
    · intro hp
      obtain ⟨x, hx, rfl⟩ := List.mem_map.mp hp
      obtain ⟨r, hr, rfl⟩ := List.mem_map.mp ((hmemdates x).mp hx)
      exact List.mem_map_of_mem _ hr
    · intro hp
      obtain ⟨r, hr, rfl⟩ := List.mem_map.mp hp
      exact List.mem_map_of_mem (fun x => (x.year, x.month))
        ((hmemdates r.date).mpr (List.mem_map_of_mem _ hr))
  have hfullmem : ∀ p : ℕ × ℕ, p ∈ List.insertionSort pairGe
      (((d :: ds).map (fun x => (x.year, x.month))).dedup)
      ↔ p ∈ rows.map (fun r => (r.date.year, r.date.month)) := by
    intro p
    rw [List.mem_insertionSort, List.mem_dedup]
    exact hpairmem p
  have hms_len : ((List.insertionSort pairGe
      (((d :: ds).map (fun x => (x.year, x.month))).dedup)).take 3).length ≤ 3 := by
    rw [List.length_take]
    exact min_le_left _ _
  have hms_nodup : ((List.insertionSort pairGe
      (((d :: ds).map (fun x => (x.year, x.month))).dedup)).take 3).Nodup :=
    List.Nodup.sublist (List.take_sublist 3 _) hfullnodup
  have hms_sorted : List.Sorted pairGe ((List.insertionSort pairGe
      (((d :: ds).map (fun x => (x.year, x.month))).dedup)).take 3) :=
    List.Pairwise.sublist (List.take_sublist 3 _) hfullsorted
  have hms_sub : ∀ p ∈ (List.insertionSort pairGe
      (((d :: ds).map (fun x => (x.year, x.month))).dedup)).take 3,
      p ∈ rows.map (fun r => (r.date.year, r.date.month)) :=
    fun p hp => (hfullmem p).mp ((List.take_sublist 3 _).subset hp)
  have hms_complete : ∀ p ∈ rows.map (fun r => (r.date.year, r.date.month)),
      p ∉ (List.insertionSort pairGe
        (((d :: ds).map (fun x => (x.year, x.month))).dedup)).take 3 →
      ((List.insertionSort pairGe
        (((d :: ds).map (fun x => (x.year, x.month))).dedup)).take 3).length = 3
      ∧ ∀ q ∈ (List.insertionSort pairGe
          (((d :: ds).map (fun x => (x.year, x.month))).dedup)).take 3,
          pairGe q p ∧ q ≠ p := by
    intro p hp hnp
    exact sorted_take_complete pairGe _ 3 hfullsorted hfullnodup p ((hfullmem p).mpr hp) hnp
  have hysorted : List.Sorted natGe (y :: ys) := by
    rw [← hy]
    exact List.sorted_insertionSort natGe _
  have hymem_iff : ∀ z : ℕ, z ∈ y :: ys ↔ z ∈ rows.map (fun r => r.date.year) := by
    intro z
    rw [← hy, List.mem_insertionSort, List.mem_dedup]
    constructor
    · intro hz
      obtain ⟨x, hx, rfl⟩ := List.mem_map.mp hz
      obtain ⟨r, hr, rfl⟩ := List.mem_map.mp ((hmemdates x).mp hx)
      exact List.mem_map_of_mem _ hr
    · intro hz
      obtain ⟨r, hr, rfl⟩ := List.mem_map.mp hz
      exact List.mem_map_of_mem (fun x => x.year)
        ((hmemdates r.date).mpr (List.mem_map_of_mem _ hr))
  have hymem : y ∈ rows.map (fun r => r.date.year) :=
    (hymem_iff y).mp (List.mem_cons_self _ _)
  have hybound : ∀ r ∈ rows, natGe y r.date.year := by
    intro r hr
    have hz : r.date.year ∈ y :: ys := (hymem_iff _).mpr (List.mem_map_of_mem _ hr)
    rcases List.mem_cons.mp hz with hzy | hzy
    · rw [hzy]
      exact natGe_refl y
    · exact List.rel_of_sorted_cons hysorted _ hzy
  have hlomem : ds.foldl dateMin d ∈ rows.map (fun r => r.date) :=
    (hmemdates _).mp (foldl_dateMin_mem ds d)
  have hhimem : ds.foldl dateMax d ∈ rows.map (fun r => r.date) :=
    (hmemdates _).mp (foldl_dateMax_mem ds d)
  have hbound : ∀ r ∈ rows,
      dateLe (ds.foldl dateMin d) r.date ∧ dateLe r.date (ds.foldl dateMax d) := by
    intro r hr
    have hrd : r.date ∈ d :: ds := (hmemdates _).mpr (List.mem_map_of_mem _ hr)
    exact ⟨foldl_dateMin_le ds d _ hrd, foldl_dateMax_ge ds d _ hrd⟩
  refine ⟨rfl, ?_, ⟨by decide, by decide, by decide, by decide⟩,
    ⟨(List.insertionSort pairGe
        (((d :: ds).map (fun x => (x.year, x.month))).dedup)).take 3,
      y, ds.foldl dateMin d, ds.foldl dateMax d,
      by rw [hgp, hbody], hms_len, hms_nodup, hms_sorted, hms_sub, hms_complete,
      hymem, hybound, hlomem, hhimem, hbound⟩⟩
  rw [hgp, hbody]
  simp only [List.length_append, List.length_map, List.length_cons, List.length_nil]
  omega

-- Witness for CLAIM C4: the worked Jan-Mar 2024 ledger gives exactly 5
-- windows (3 months, the year, the all-period span).
theorem claim_c4_periods_witness :
    exRows ≠ []
    ∧ (get_periods ([] : List Row) = []
        ∧ (get_periods exRows).length ≤ 5
        ∧ (monthLength 2024 2 = 29 ∧ monthLength 2023 2 = 28
            ∧ monthLength 1900 2 = 28 ∧ monthLength 2000 2 = 29)
        ∧ ∃ (ms : List (ℕ × ℕ)) (y : ℕ) (lo hi : Date),
            get_periods exRows
                = ms.map monthWindow
                  ++ [(toString y, (⟨y, 1, 1⟩ : Date), (⟨y, 12, 31⟩ : Date)),
                      ("All period", lo, hi)]
            ∧ ms.length ≤ 3
            ∧ ms.Nodup
            ∧ List.Sorted pairGe ms
            ∧ (∀ p ∈ ms, p ∈ exRows.map (fun r => (r.date.year, r.date.month)))
            ∧ (∀ p ∈ exRows.map (fun r => (r.date.year, r.date.month)), p ∉ ms →
                ms.length = 3 ∧ ∀ q ∈ ms, pairGe q p ∧ q ≠ p)
            ∧ y ∈ exRows.map (fun r => r.date.year)
            ∧ (∀ r ∈ exRows, natGe y r.date.year)
            ∧ lo ∈ exRows.map (fun r => r.date)
            ∧ hi ∈ exRows.map (fun r => r.date)
            ∧ (∀ r ∈ exRows, dateLe lo r.date ∧ dateLe r.date hi)) :=
  ⟨by decide, claim_c4_periods exRows (by decide)⟩
